import Mathlib

/-!
Verification of the requirement-resolution core of the dsp-calculator
repository (src/main.py), shallowly embedded in Lean 4.

Python floats are modelled by the rationals; Python dicts (which preserve
insertion order) are modelled by association lists with unique keys kept in
insertion order; Python exceptions are modelled by the Except monad; the
unbounded Python recursion of get_requirements is modelled with an explicit
fuel parameter (fuel exhaustion plays the role of RecursionError).
-/

deriving instance DecidableEq for Except

namespace DSPCalc

/-- Python dataclass MaterialWithAmount (src/main.py lines 29-45). -/
structure MaterialWithAmount where
  name : String
  amount : ℚ
  deriving Repr, DecidableEq, Inhabited

/-- MaterialWithAmount.__add__: raises ValueError when the names differ. -/
def MaterialWithAmount.add (x y : MaterialWithAmount) : Except String MaterialWithAmount :=
  if x.name ≠ y.name then .error "Cannot add materials with different names"
  else .ok ⟨x.name, x.amount + y.amount⟩

/-- MaterialWithAmount.__mul__ (scalar on the amount, name kept). -/
def MaterialWithAmount.mul (x : MaterialWithAmount) (m : ℚ) : MaterialWithAmount :=
  ⟨x.name, x.amount * m⟩

/-- MaterialWithAmount.__truediv__ (scalar on the amount, name kept). -/
def MaterialWithAmount.div (x : MaterialWithAmount) (d : ℚ) : MaterialWithAmount :=
  ⟨x.name, x.amount / d⟩

/-- Python dataclass Recipe (src/main.py lines 48-54).  The source annotates
duration as int; its values embed into the rationals used for the rate
arithmetic. -/
structure Recipe where
  input : List MaterialWithAmount
  output : List MaterialWithAmount
  made_in : String
  duration : ℚ
  enabled : Bool
  deriving Repr, DecidableEq, Inhabited

/-- Python dataclass Multipliers (src/main.py lines 22-26): one mapping from
building-variant name to speed multiplier per facility class. -/
structure Multipliers where
  assembler : List (String × ℚ)
  smelting_facility : List (String × ℚ)
  chemical_facility : List (String × ℚ)
  deriving Repr, DecidableEq, Inhabited

/-- Python dataclass UserInput (src/main.py lines 57-64). -/
structure UserInput where
  material : String
  production_rate : ℚ
  assembler : String
  smelting_facility : String
  chemical_facility : String
  matrix_lab_height : ℤ
  deriving Repr, DecidableEq, Inhabited

/-- Lookup in an insertion-ordered association list (Python dict access):
the first entry whose key matches. -/
def dictLookup {α : Type} : List (String × α) → String → Option α
  | [], _ => none
  | p :: d, k => if p.1 = k then some p.2 else dictLookup d k

/-- Key membership test of a Python dict. -/
def dictContains {α : Type} : List (String × α) → String → Bool
  | [], _ => false
  | p :: d, k => if p.1 = k then true else dictContains d k

/-- Assignment d[k] = v when k is already present: the value is replaced,
the position of the key is kept (Python dict update semantics). -/
def dictUpdate {α : Type} : List (String × α) → String → α → List (String × α)
  | [], _, _ => []
  | p :: d, k, v => (if p.1 = k then (k, v) else p) :: dictUpdate d k v

/-- Assignment d[k] = v: update in place when present, append when fresh
(Python dict assignment preserves insertion order). -/
def dictInsert {α : Type} (d : List (String × α)) (k : String) (v : α) :
    List (String × α) :=
  if dictContains d k then dictUpdate d k v else d ++ [(k, v)]

/-- The keys of a dict in insertion order. -/
def dictKeys {α : Type} (d : List (String × α)) : List String :=
  d.map (fun p => p.1)

/-- UserInput.multiplier_for_facility (src/main.py lines 66-80).  The Python
dict subscripts raise KeyError for an absent variant name; the unknown
facility branch raises ValueError. -/
def UserInput.multiplier_for_facility (self : UserInput) (multipliers : Multipliers)
    (facility : String) : Except String ℚ :=
  if facility = "Assembler" then
    match dictLookup multipliers.assembler self.assembler with
    | some v => .ok v
    | none => .error ("KeyError: " ++ self.assembler)
  else if facility = "Smelting Facility" then
    match dictLookup multipliers.smelting_facility self.smelting_facility with
    | some v => .ok v
    | none => .error ("KeyError: " ++ self.smelting_facility)
  else if facility = "Chemical Facility" then
    match dictLookup multipliers.chemical_facility self.chemical_facility with
    | some v => .ok v
    | none => .error ("KeyError: " ++ self.chemical_facility)
  else if facility = "Research Facility" then .ok (self.matrix_lab_height : ℚ)
  else if facility = "Refining Facility" then .ok 1
  else .error ("Invalid facility: " ++ facility)

/-- UserInput.building_for_facility (src/main.py lines 82-94). -/
def UserInput.building_for_facility (self : UserInput) (facility : String) :
    Except String String :=
  if facility = "Assembler" then .ok self.assembler
  else if facility = "Smelting Facility" then .ok self.smelting_facility
  else if facility = "Chemical Facility" then .ok self.chemical_facility
  else if facility = "Research Facility" then .ok "Matrix Lab"
  else if facility = "Refining Facility" then .ok "Oil Refinery"
  else .error ("Invalid facility: " ++ facility)

/-- Python dataclass RequirementForMaterial (src/main.py lines 97-101). -/
structure RequirementForMaterial where
  rate : ℚ
  building : MaterialWithAmount
  input : List MaterialWithAmount
  deriving Repr, DecidableEq, Inhabited

/-- Requirements = Mapping[str, RequirementForMaterial] (src/main.py line 104). -/
abbrev Requirements := List (String × RequirementForMaterial)

/-- One recipe of build_recipe_map: register every output name of the recipe
(src/main.py lines 202-207, the inner comprehension loop). -/
def registerRecipeOutputs (acc : List (String × Recipe)) (recipe : Recipe) :
    List (String × Recipe) :=
  recipe.output.foldl (fun acc out => dictInsert acc out.name recipe) acc

/-- build_recipe_map (src/main.py lines 201-207): the dict comprehension
walks recipes in catalog order, then each output of the recipe, keeping only
enabled recipes; a repeated output name overwrites the earlier binding. -/
def build_recipe_map (recipes : List Recipe) : List (String × Recipe) :=
  recipes.foldl
    (fun acc recipe => if recipe.enabled then registerRecipeOutputs acc recipe else acc)
    []

/-- The element-wise input merge of merge_requirements (src/main.py lines
224-228): the comprehension ranges over the length of the incoming input
list; position i reads the stored list at i (IndexError when the stored
list is shorter) and adds, MaterialWithAmount.__add__ raising when the
names at position i differ. -/
def mergeInputs : List MaterialWithAmount → List MaterialWithAmount →
    Except String (List MaterialWithAmount)
  | _, [] => .ok []
  | [], _ :: _ => .error "IndexError: list index out of range"
  | s :: ss, t :: ts =>
    match s.add t with
    | .error e => .error e
    | .ok h =>
      match mergeInputs ss ts with
      | .error e => .error e
      | .ok rest => .ok (h :: rest)

/-- The value stored for a material that was already present when the same
material arrives again (src/main.py lines 217-228): rate is added, the
building name is overwritten by the incoming name, the building amount is
added, and inp is the element-wise merged input list. -/
def combineEntry (stored incoming : RequirementForMaterial)
    (inp : List MaterialWithAmount) : RequirementForMaterial :=
  ⟨stored.rate + incoming.rate,
   ⟨incoming.building.name, stored.building.amount + incoming.building.amount⟩,
   inp⟩

/-- Processing of one (material, entry) pair of the inner loop of
merge_requirements (src/main.py lines 215-230). -/
def mergeStep (acc : Requirements) (e : String × RequirementForMaterial) :
    Except String Requirements :=
  match dictLookup acc e.1 with
  | some stored =>
    match mergeInputs stored.input e.2.input with
    | .ok newInput => .ok (dictUpdate acc e.1 (combineEntry stored e.2 newInput))
    | .error msg => .error msg
  | none => .ok (acc ++ [e])

/-- The inner loop of merge_requirements over one requirement map,
in insertion order. -/
def mergeOne (acc : Requirements) (req : Requirements) : Except String Requirements :=
  req.foldlM mergeStep acc

/-- merge_requirements (src/main.py lines 210-231), as the function from the
contents of the argument maps to the contents of the returned map. -/
def merge_requirements (requirements : List Requirements) : Except String Requirements :=
  requirements.foldlM mergeOne []

/-- The loop of find_recipe_output_material: the first list entry whose
name is the target. -/
def find_output : List MaterialWithAmount → String → Option MaterialWithAmount
  | [], _ => none
  | m :: rest, t => if m.name = t then some m else find_output rest t

/-- find_recipe_output_material (src/main.py lines 250-254): first output
entry of the recipe whose name is the target, ValueError when none matches. -/
def find_recipe_output_material (recipe : Recipe) (target_material : String) :
    Except String MaterialWithAmount :=
  match find_output recipe.output target_material with
  | some m => .ok m
  | none => .error ("Material not found in recipe output: " ++ target_material)

mutual

/-- get_requirements (src/main.py lines 234-288).  fuel bounds the recursion
depth; running out of fuel models RecursionError of the unbounded Python
recursion and never occurs on recipe graphs whose expansion terminates. -/
def get_requirements (fuel : Nat) (target_material : String) (target_rate : ℚ)
    (user_input : UserInput) (recipe_map : List (String × Recipe))
    (multipliers : Multipliers) : Except String Requirements :=
  match fuel with
  | 0 => .error "RecursionError: maximum recursion depth exceeded"
  | Nat.succ fuel =>
    match dictLookup recipe_map target_material with
    | none => .ok [(target_material, ⟨target_rate, ⟨"", 0⟩, []⟩)]
    | some recipe =>
      match find_recipe_output_material recipe target_material with
      | .error e => .error e
      | .ok output_recipe_material =>
        match expand_inputs fuel recipe.input output_recipe_material.amount
            target_rate user_input recipe_map multipliers with
        | .error e => .error e
        | .ok subResults =>
          match user_input.building_for_facility recipe.made_in with
          | .error e => .error e
          | .ok buildingName =>
            match user_input.multiplier_for_facility multipliers recipe.made_in with
            | .error e => .error e
            | .ok multiplier =>
              merge_requirements (subResults ++ [[(target_material,
                ⟨target_rate,
                 ((MaterialWithAmount.mk buildingName target_rate).mul
                     recipe.duration).div output_recipe_material.amount
                   |>.div multiplier,
                 recipe.input.map (fun material =>
                   (material.mul target_rate).div output_recipe_material.amount)⟩)]])
termination_by (fuel, 0)

/-- The list comprehension of src/main.py lines 258-267: one recursive
resolution per input ingredient, in order, each at rate
target_rate / batch * ingredient amount; the first exception propagates. -/
def expand_inputs (fuel : Nat) (inputs : List MaterialWithAmount) (batch : ℚ)
    (target_rate : ℚ) (user_input : UserInput) (recipe_map : List (String × Recipe))
    (multipliers : Multipliers) : Except String (List Requirements) :=
  match inputs with
  | [] => .ok []
  | material :: rest =>
    match get_requirements fuel material.name (target_rate / batch * material.amount)
        user_input recipe_map multipliers with
    | .error e => .error e
    | .ok r =>
      match expand_inputs fuel rest batch target_rate user_input recipe_map multipliers with
      | .error e => .error e
      | .ok rs => .ok (r :: rs)
termination_by (fuel, inputs.length + 1)

end

/-- The continuation of get_requirements after the recursive expansion of the
ingredients (src/main.py lines 269-288): resolve the building name and the
facility multiplier, build the single-entry map for the target itself, and
merge it after the sub-results. -/
def after_sub_results (target_material : String) (target_rate : ℚ)
    (user_input : UserInput) (recipe : Recipe)
    (output_recipe_material : MaterialWithAmount) (multipliers : Multipliers)
    (subResults : List Requirements) : Except String Requirements :=
  match user_input.building_for_facility recipe.made_in with
  | .error e => .error e
  | .ok buildingName =>
    match user_input.multiplier_for_facility multipliers recipe.made_in with
    | .error e => .error e
    | .ok multiplier =>
      merge_requirements (subResults ++ [[(target_material,
        ⟨target_rate,
         ((MaterialWithAmount.mk buildingName target_rate).mul
             recipe.duration).div output_recipe_material.amount
           |>.div multiplier,
         recipe.input.map (fun material =>
           (material.mul target_rate).div output_recipe_material.amount)⟩)]])

/-!
Reference-aware model of merge_requirements, for the claims about mutation.

Python maps hold references to mutable RequirementForMaterial objects; the
else branch of merge_requirements stores the incoming reference itself in
the merged dict, and the merging branch mutates the stored object in place.
The heap is a list of RequirementForMaterial objects addressed by position,
and a requirement map is a dict from material name to heap address.
-/

/-- A Python requirement dict seen as references into a heap. -/
abbrev RefMap := List (String × Nat)

/-- One (material, reference) pair of the inner loop of merge_requirements,
over the heap: a fresh material stores the incoming reference itself; a
repeated material updates the already-referenced object in place. -/
def mergeHeapStep (st : List RequirementForMaterial × RefMap) (e : String × Nat) :
    Except String (List RequirementForMaterial × RefMap) :=
  match dictLookup st.2 e.1 with
  | some storedRef =>
    match st.1[storedRef]?, st.1[e.2]? with
    | some stored, some incoming =>
      match mergeInputs stored.input incoming.input with
      | .ok newInput =>
        .ok (st.1.set storedRef (combineEntry stored incoming newInput), st.2)
      | .error msg => .error msg
    | _, _ => .error "invalid reference"
  | none => .ok (st.1, st.2 ++ [e])

/-- The inner loop of merge_requirements over one argument map, on the heap. -/
def mergeHeapOne (st : List RequirementForMaterial × RefMap) (req : RefMap) :
    Except String (List RequirementForMaterial × RefMap) :=
  req.foldlM mergeHeapStep st

/-- merge_requirements (src/main.py lines 210-231) over heap references:
returns the heap after the call together with the merged map.  When a
material is seen again, the object the merged map already points to — which
is the object the first map holding that material also points to — is
updated in place. -/
def merge_requirements_heap (requirements : List RefMap)
    (heap : List RequirementForMaterial) :
    Except String (List RequirementForMaterial × RefMap) :=
  requirements.foldlM mergeHeapOne (heap, [])

/-- Spec-side description of the recipe index (a refinement reference for
build_recipe_map): the producer recorded for a material is the last
enabled recipe in catalog order that lists the material among its outputs. -/
def last_enabled_producer_spec (recipes : List Recipe) (m : String) : Option Recipe :=
  (recipes.filter (fun r => r.enabled && r.output.any (fun o => o.name == m))).getLast?

/-! ### Association-list (Python dict) lemmas -/

theorem dictLookup_eq_none_iff {α : Type} {d : List (String × α)} {k : String} :
    dictLookup d k = none ↔ k ∉ dictKeys d := by
  induction d with
  | nil => simp [dictLookup, dictKeys]
  | cons p d ih =>
    by_cases hp : p.1 = k
    · simp [dictLookup, dictKeys, hp]
    · simp [dictLookup, dictKeys, hp, ih, Ne.symm hp]

theorem mem_dictKeys_of_lookup {α : Type} {d : List (String × α)} {k : String} {v : α}
    (h : dictLookup d k = some v) : k ∈ dictKeys d := by
  by_contra hk
  rw [← dictLookup_eq_none_iff] at hk
  rw [h] at hk
  exact Option.noConfusion hk

theorem dictKeys_append {α : Type} (d : List (String × α)) (e : String × α) :
    dictKeys (d ++ [e]) = dictKeys d ++ [e.1] := by
  simp [dictKeys]

theorem dictKeys_update {α : Type} (d : List (String × α)) (k : String) (v : α) :
    dictKeys (dictUpdate d k v) = dictKeys d := by
  induction d with
  | nil => rfl
  | cons p d ih =>
    by_cases hp : p.1 = k
    · simp [dictUpdate, dictKeys, hp, dictKeys_update] at ih ⊢
      simpa [dictKeys] using ih
    · simp only [dictUpdate, dictKeys, List.map_cons, hp, if_false] at ih ⊢
      simp [ih]

theorem dictLookup_append_of_none {α : Type} {d : List (String × α)} {k : String}
    (e : String × α) (h : dictLookup d k = none) :
    dictLookup (d ++ [e]) k = if e.1 = k then some e.2 else none := by
  induction d with
  | nil => simp [dictLookup]
  | cons p d ih =>
    by_cases hp : p.1 = k
    · simp [dictLookup, hp] at h
    · simp only [dictLookup, hp, if_false] at h
      simp only [List.cons_append, dictLookup, hp, if_false]
      exact ih h

theorem dictLookup_append_of_some {α : Type} {d : List (String × α)} {k : String} {v : α}
    (e : String × α) (h : dictLookup d k = some v) :
    dictLookup (d ++ [e]) k = some v := by
  induction d with
  | nil => simp [dictLookup] at h
  | cons p d ih =>
    by_cases hp : p.1 = k
    · simp only [dictLookup, hp, if_true] at h
      simp [List.cons_append, dictLookup, hp, h]
    · simp only [dictLookup, hp, if_false] at h
      simp only [List.cons_append, dictLookup, hp, if_false]
      exact ih h

theorem dictLookup_update_of_some {α : Type} {d : List (String × α)} {k : String} {s : α}
    (v : α) (h : dictLookup d k = some s) :
    dictLookup (dictUpdate d k v) k = some v := by
  induction d with
  | nil => simp [dictLookup] at h
  | cons p d ih =>
    by_cases hp : p.1 = k
    · simp [dictUpdate, dictLookup, hp]
    · simp only [dictLookup, hp, if_false] at h
      simp only [dictUpdate, dictLookup, hp, if_false]
      exact ih h

theorem dictLookup_update_ne {α : Type} {d : List (String × α)} {k k' : String}
    (v : α) (h : k' ≠ k) :
    dictLookup (dictUpdate d k v) k' = dictLookup d k' := by
  induction d with
  | nil => rfl
  | cons p d ih =>
    by_cases hp : p.1 = k
    · simp [dictUpdate, dictLookup, hp, Ne.symm h, ih]
    · by_cases hp' : p.1 = k'
      · simp [dictUpdate, dictLookup, hp, hp', h]
      · simp [dictUpdate, dictLookup, hp, hp', ih]

/-! ### Sums of a numeric field over all entries of a given material -/

/-- Sum of a numeric projection over every entry carrying material k. -/
def fieldSum (f : RequirementForMaterial → ℚ) : Requirements → String → ℚ
  | [], _ => 0
  | p :: d, k => (if p.1 = k then f p.2 else 0) + fieldSum f d k

theorem fieldSum_append_single (f : RequirementForMaterial → ℚ) (d : Requirements)
    (e : String × RequirementForMaterial) (k : String) :
    fieldSum f (d ++ [e]) k = fieldSum f d k + (if e.1 = k then f e.2 else 0) := by
  induction d with
  | nil => simp [fieldSum]
  | cons p d ih => simp [fieldSum, ih]; ring

theorem fieldSum_eq_zero_of_not_mem {f : RequirementForMaterial → ℚ} {d : Requirements}
    {k : String} (h : k ∉ dictKeys d) : fieldSum f d k = 0 := by
  induction d with
  | nil => rfl
  | cons p d ih =>
    simp only [dictKeys, List.map_cons, List.mem_cons, not_or] at h
    simp [fieldSum, Ne.symm h.1, ih h.2]

theorem fieldSum_of_lookup {f : RequirementForMaterial → ℚ} {d : Requirements}
    {k : String} {s : RequirementForMaterial} (hnd : (dictKeys d).Nodup)
    (h : dictLookup d k = some s) : fieldSum f d k = f s := by
  induction d with
  | nil => simp [dictLookup] at h
  | cons p d ih =>
    simp only [dictKeys, List.map_cons, List.nodup_cons] at hnd
    by_cases hp : p.1 = k
    · simp only [dictLookup, hp, if_true, Option.some.injEq] at h
      have hk : k ∉ dictKeys d := by rw [← hp]; exact hnd.1
      simp [fieldSum, hp, h, fieldSum_eq_zero_of_not_mem hk]
    · simp only [dictLookup, hp, if_false] at h
      simp [fieldSum, hp, ih hnd.2 h]

theorem fieldSum_update_ne {f : RequirementForMaterial → ℚ} {d : Requirements}
    {k k' : String} (v : RequirementForMaterial) (h : k' ≠ k) :
    fieldSum f (dictUpdate d k v) k' = fieldSum f d k' := by
  induction d with
  | nil => rfl
  | cons p d ih =>
    by_cases hp : p.1 = k
    · simp [dictUpdate, fieldSum, hp, Ne.symm h, ih]
    · simp [dictUpdate, fieldSum, hp, ih]

/-! ### Except-monad plumbing -/

theorem except_bind_ok {α β : Type} {x : Except String α} {f : α → Except String β} {b : β}
    (h : x >>= f = .ok b) : ∃ a, x = .ok a ∧ f a = .ok b := by
  cases x with
  | error e => simp [Bind.bind, Except.bind] at h
  | ok a =>
    refine ⟨a, rfl, ?_⟩
    simpa [Bind.bind, Except.bind] using h

theorem except_foldlM_append {α β : Type} (g : β → α → Except String β)
    (l₁ l₂ : List α) (b : β) :
    (l₁ ++ l₂).foldlM g b = (l₁.foldlM g b) >>= fun c => l₂.foldlM g c := by
  induction l₁ generalizing b with
  | nil => simp
  | cons a l ih =>
    simp only [List.cons_append, List.foldlM_cons]
    cases g b a with
    | error e => simp [Bind.bind, Except.bind]
    | ok c => simp only [Bind.bind, Except.bind]; exact ih c

/-! ### mergeStep lemmas -/

theorem mergeStep_ok_nodup {acc acc' : Requirements} {e : String × RequirementForMaterial}
    (h : mergeStep acc e = .ok acc') (hnd : (dictKeys acc).Nodup) :
    (dictKeys acc').Nodup := by
  cases hl : dictLookup acc e.1 with
  | some stored =>
    cases hm : mergeInputs stored.input e.2.input with
    | ok newInput =>
      simp only [mergeStep, hl, hm, Except.ok.injEq] at h
      rw [← h, dictKeys_update]
      exact hnd
    | error msg =>
      simp only [mergeStep, hl, hm] at h
      exact Except.noConfusion h
  | none =>
    simp only [mergeStep, hl, Except.ok.injEq] at h
    rw [← h, dictKeys_append]
    rw [dictLookup_eq_none_iff] at hl
    simp [List.nodup_append, hnd, hl]

theorem mergeStep_ok_mem {acc acc' : Requirements} {e : String × RequirementForMaterial}
    (h : mergeStep acc e = .ok acc') (k : String) :
    k ∈ dictKeys acc' ↔ k ∈ dictKeys acc ∨ k = e.1 := by
  cases hl : dictLookup acc e.1 with
  | some stored =>
    cases hm : mergeInputs stored.input e.2.input with
    | ok newInput =>
      simp only [mergeStep, hl, hm, Except.ok.injEq] at h
      rw [← h, dictKeys_update]
      constructor
      · exact Or.inl
      · rintro (hk | rfl)
        · exact hk
        · exact mem_dictKeys_of_lookup hl
    | error msg =>
      simp only [mergeStep, hl, hm] at h
      exact Except.noConfusion h
  | none =>
    simp only [mergeStep, hl, Except.ok.injEq] at h
    rw [← h, dictKeys_append]
    simp

theorem mergeStep_ok_fieldSum (f : RequirementForMaterial → ℚ)
    (hf : ∀ s i inp, f (combineEntry s i inp) = f s + f i)
    {acc acc' : Requirements} {e : String × RequirementForMaterial}
    (h : mergeStep acc e = .ok acc') (hnd : (dictKeys acc).Nodup) (k : String) :
    fieldSum f acc' k = fieldSum f acc k + (if e.1 = k then f e.2 else 0) := by
  cases hl : dictLookup acc e.1 with
  | some stored =>
    cases hm : mergeInputs stored.input e.2.input with
    | ok newInput =>
      simp only [mergeStep, hl, hm, Except.ok.injEq] at h
      subst h
      by_cases hk : e.1 = k
      · subst hk
        have hupd : dictLookup (dictUpdate acc e.1 (combineEntry stored e.2 newInput)) e.1 =
            some (combineEntry stored e.2 newInput) := dictLookup_update_of_some _ hl
        have hndu : (dictKeys (dictUpdate acc e.1 (combineEntry stored e.2 newInput))).Nodup := by
          rw [dictKeys_update]; exact hnd
        rw [fieldSum_of_lookup hndu hupd, fieldSum_of_lookup hnd hl, hf]
        simp
      · rw [fieldSum_update_ne _ (fun hkk => hk hkk.symm)]
        simp [hk]
    | error msg =>
      simp only [mergeStep, hl, hm] at h
      exact Except.noConfusion h
  | none =>
    simp only [mergeStep, hl, Except.ok.injEq] at h
    rw [← h, fieldSum_append_single]

theorem mergeStep_ok_lookup_ne {acc acc' : Requirements} {e : String × RequirementForMaterial}
    (h : mergeStep acc e = .ok acc') {k : String} (hk : k ≠ e.1) :
    dictLookup acc' k = dictLookup acc k := by
  cases hl : dictLookup acc e.1 with
  | some stored =>
    cases hm : mergeInputs stored.input e.2.input with
    | ok newInput =>
      simp only [mergeStep, hl, hm, Except.ok.injEq] at h
      rw [← h, dictLookup_update_ne _ hk]
    | error msg =>
      simp only [mergeStep, hl, hm] at h
      exact Except.noConfusion h
  | none =>
    simp only [mergeStep, hl, Except.ok.injEq] at h
    rw [← h]
    cases hlk : dictLookup acc k with
    | some v => exact dictLookup_append_of_some _ hlk
    | none =>
      rw [dictLookup_append_of_none _ hlk, if_neg (fun hkk : e.1 = k => hk hkk.symm)]

/-! ### mergeOne: one requirement map folded into the accumulator -/

theorem mergeOne_ok_nodup {acc req R : Requirements}
    (h : mergeOne acc req = .ok R) (hnd : (dictKeys acc).Nodup) :
    (dictKeys R).Nodup := by
  induction req generalizing acc with
  | nil =>
    simp only [mergeOne, List.foldlM_nil] at h
    cases h
    exact hnd
  | cons e rest ih =>
    simp only [mergeOne, List.foldlM_cons] at h
    obtain ⟨acc', h1, h2⟩ := except_bind_ok h
    exact ih h2 (mergeStep_ok_nodup h1 hnd)

theorem mergeOne_ok_mem {acc req R : Requirements}
    (h : mergeOne acc req = .ok R) (k : String) :
    k ∈ dictKeys R ↔ k ∈ dictKeys acc ∨ k ∈ dictKeys req := by
  induction req generalizing acc with
  | nil =>
    simp only [mergeOne, List.foldlM_nil] at h
    cases h
    simp [dictKeys]
  | cons e rest ih =>
    simp only [mergeOne, List.foldlM_cons] at h
    obtain ⟨acc', h1, h2⟩ := except_bind_ok h
    rw [ih h2, mergeStep_ok_mem h1]
    simp only [dictKeys, List.map_cons, List.mem_cons]
    tauto

theorem mergeOne_ok_fieldSum (f : RequirementForMaterial → ℚ)
    (hf : ∀ s i inp, f (combineEntry s i inp) = f s + f i)
    {acc req R : Requirements}
    (h : mergeOne acc req = .ok R) (hnd : (dictKeys acc).Nodup) (k : String) :
    fieldSum f R k = fieldSum f acc k + fieldSum f req k := by
  induction req generalizing acc with
  | nil =>
    simp only [mergeOne, List.foldlM_nil] at h
    cases h
    simp [fieldSum]
  | cons e rest ih =>
    simp only [mergeOne, List.foldlM_cons] at h
    obtain ⟨acc', h1, h2⟩ := except_bind_ok h
    rw [ih h2 (mergeStep_ok_nodup h1 hnd), mergeStep_ok_fieldSum f hf h1 hnd]
    simp only [fieldSum]
    ring

theorem mergeOne_ok_lookup_of_not_mem {acc req R : Requirements}
    (h : mergeOne acc req = .ok R) {k : String} (hk : k ∉ dictKeys req) :
    dictLookup R k = dictLookup acc k := by
  induction req generalizing acc with
  | nil =>
    simp only [mergeOne, List.foldlM_nil] at h
    cases h
    rfl
  | cons e rest ih =>
    simp only [dictKeys, List.map_cons, List.mem_cons, not_or] at hk
    simp only [mergeOne, List.foldlM_cons] at h
    obtain ⟨acc', h1, h2⟩ := except_bind_ok h
    rw [ih h2 (by simpa [dictKeys] using hk.2), mergeStep_ok_lookup_ne h1 hk.1]

/-! ### merge_requirements: the outer fold over the list of maps -/

theorem foldMergeOne_ok_nodup {L : List Requirements} {acc R : Requirements}
    (h : L.foldlM mergeOne acc = .ok R) (hnd : (dictKeys acc).Nodup) :
    (dictKeys R).Nodup := by
  induction L generalizing acc with
  | nil =>
    simp only [List.foldlM_nil] at h
    cases h
    exact hnd
  | cons r rest ih =>
    simp only [List.foldlM_cons] at h
    obtain ⟨acc', h1, h2⟩ := except_bind_ok h
    exact ih h2 (mergeOne_ok_nodup h1 hnd)

theorem merge_requirements_ok_nodup {L : List Requirements} {R : Requirements}
    (h : merge_requirements L = .ok R) : (dictKeys R).Nodup :=
  foldMergeOne_ok_nodup h (by simp [dictKeys])

theorem foldMergeOne_ok_mem {L : List Requirements} {acc R : Requirements}
    (h : L.foldlM mergeOne acc = .ok R) (k : String) :
    k ∈ dictKeys R ↔ k ∈ dictKeys acc ∨ ∃ r ∈ L, k ∈ dictKeys r := by
  induction L generalizing acc with
  | nil =>
    simp only [List.foldlM_nil] at h
    cases h
    simp
  | cons r rest ih =>
    simp only [List.foldlM_cons] at h
    obtain ⟨acc', h1, h2⟩ := except_bind_ok h
    rw [ih h2, mergeOne_ok_mem h1]
    simp only [List.mem_cons]
    constructor
    · rintro ((hm | hm) | ⟨r', hr', hm⟩)
      · exact Or.inl hm
      · exact Or.inr ⟨r, Or.inl rfl, hm⟩
      · exact Or.inr ⟨r', Or.inr hr', hm⟩
    · rintro (hm | ⟨r', hr' | hr', hm⟩)
      · exact Or.inl (Or.inl hm)
      · subst hr'; exact Or.inl (Or.inr hm)
      · exact Or.inr ⟨r', hr', hm⟩

theorem merge_requirements_ok_mem {L : List Requirements} {R : Requirements}
    (h : merge_requirements L = .ok R) (k : String) :
    k ∈ dictKeys R ↔ ∃ r ∈ L, k ∈ dictKeys r := by
  rw [foldMergeOne_ok_mem h k]
  simp [dictKeys]

theorem foldMergeOne_ok_fieldSum (f : RequirementForMaterial → ℚ)
    (hf : ∀ s i inp, f (combineEntry s i inp) = f s + f i)
    {L : List Requirements} {acc R : Requirements}
    (h : L.foldlM mergeOne acc = .ok R) (hnd : (dictKeys acc).Nodup) (k : String) :
    fieldSum f R k = fieldSum f acc k + (L.map (fun r => fieldSum f r k)).sum := by
  induction L generalizing acc with
  | nil =>
    simp only [List.foldlM_nil] at h
    cases h
    simp
  | cons r rest ih =>
    simp only [List.foldlM_cons] at h
    obtain ⟨acc', h1, h2⟩ := except_bind_ok h
    rw [ih h2 (mergeOne_ok_nodup h1 hnd), mergeOne_ok_fieldSum f hf h1 hnd]
    simp only [List.map_cons, List.sum_cons]
    ring

theorem merge_requirements_ok_fieldSum (f : RequirementForMaterial → ℚ)
    (hf : ∀ s i inp, f (combineEntry s i inp) = f s + f i)
    {L : List Requirements} {R : Requirements}
    (h : merge_requirements L = .ok R) (k : String) :
    fieldSum f R k = (L.map (fun r => fieldSum f r k)).sum := by
  rw [foldMergeOne_ok_fieldSum f hf h (by simp [dictKeys]) k]
  simp [fieldSum]

theorem merge_requirements_last_singleton {L : List Requirements} {t : String}
    {e : RequirementForMaterial} {R : Requirements}
    (h : merge_requirements (L ++ [[(t, e)]]) = .ok R)
    (ht : ∀ r ∈ L, t ∉ dictKeys r) :
    dictLookup R t = some e := by
  unfold merge_requirements at h
  rw [except_foldlM_append] at h
  obtain ⟨acc, h1, h2⟩ := except_bind_ok h
  simp only [List.foldlM_cons, List.foldlM_nil] at h2
  obtain ⟨R', h3, h4⟩ := except_bind_ok h2
  have hR : R' = R := by
    simpa [pure, Except.pure] using h4
  subst hR
  have htacc : t ∉ dictKeys acc := by
    rw [foldMergeOne_ok_mem h1 t]
    simp only [dictKeys, List.map_nil, List.not_mem_nil, false_or]
    rintro ⟨r, hr, hm⟩
    exact ht r hr hm
  have hlnone : dictLookup acc t = none := dictLookup_eq_none_iff.mpr htacc
  simp only [mergeOne, List.foldlM_cons, List.foldlM_nil] at h3
  obtain ⟨acc2, h5, h6⟩ := except_bind_ok h3
  have hacc2 : acc2 = R' := by
    simpa [pure, Except.pure] using h6
  subst hacc2
  simp only [mergeStep, hlnone, Except.ok.injEq] at h5
  rw [← h5, dictLookup_append_of_none _ hlnone]
  simp

/-! ### get_requirements unfolding and invariants -/

theorem get_requirements_leaf_eq (fuel : Nat) (t : String) (r : ℚ) (u : UserInput)
    (rm : List (String × Recipe)) (mults : Multipliers)
    (hl : dictLookup rm t = none) :
    get_requirements (fuel + 1) t r u rm mults = .ok [(t, ⟨r, ⟨"", 0⟩, []⟩)] := by
  simp only [get_requirements, hl]

theorem get_requirements_crafted_eq (fuel : Nat) (t : String) (r : ℚ) (u : UserInput)
    (rm : List (String × Recipe)) (mults : Multipliers) {recipe : Recipe}
    (hl : dictLookup rm t = some recipe) {out : MaterialWithAmount}
    (hf : find_recipe_output_material recipe t = .ok out) :
    get_requirements (fuel + 1) t r u rm mults =
      match expand_inputs fuel recipe.input out.amount r u rm mults with
      | .error e => .error e
      | .ok subResults => after_sub_results t r u recipe out mults subResults := by
  simp only [get_requirements, hl, hf, after_sub_results]

theorem get_requirements_ok_nodup {fuel : Nat} {t : String} {r : ℚ} {u : UserInput}
    {rm : List (String × Recipe)} {mults : Multipliers} {R : Requirements}
    (h : get_requirements fuel t r u rm mults = .ok R) : (dictKeys R).Nodup := by
  match fuel with
  | 0 => simp [get_requirements] at h
  | Nat.succ fuel =>
    cases hl : dictLookup rm t with
    | none =>
      simp only [get_requirements, hl, Except.ok.injEq] at h
      cases h
      simp [dictKeys]
    | some recipe =>
      cases hf : find_recipe_output_material recipe t with
      | error e => simp [get_requirements, hl, hf] at h
      | ok out =>
        cases he : expand_inputs fuel recipe.input out.amount r u rm mults with
        | error e => simp [get_requirements, hl, hf, he] at h
        | ok subs =>
          cases hb : u.building_for_facility recipe.made_in with
          | error e => simp [get_requirements, hl, hf, he, hb] at h
          | ok bname =>
            cases hm : u.multiplier_for_facility mults recipe.made_in with
            | error e => simp [get_requirements, hl, hf, he, hb, hm] at h
            | ok mult =>
              simp only [get_requirements, hl, hf, he, hb, hm] at h
              exact merge_requirements_ok_nodup h

theorem expand_inputs_ok_mem {fuel : Nat} {inputs : List MaterialWithAmount} {batch r : ℚ}
    {u : UserInput} {rm : List (String × Recipe)} {mults : Multipliers}
    {subs : List Requirements}
    (h : expand_inputs fuel inputs batch r u rm mults = .ok subs) :
    ∀ s ∈ subs, ∃ mat ∈ inputs,
      get_requirements fuel mat.name (r / batch * mat.amount) u rm mults = .ok s := by
  induction inputs generalizing subs with
  | nil =>
    simp only [expand_inputs, Except.ok.injEq] at h
    cases h
    simp
  | cons mat rest ih =>
    cases hg : get_requirements fuel mat.name (r / batch * mat.amount) u rm mults with
    | error e => simp [expand_inputs, hg] at h
    | ok rr =>
      cases he : expand_inputs fuel rest batch r u rm mults with
      | error e => simp [expand_inputs, hg, he] at h
      | ok rs =>
        simp only [expand_inputs, hg, he, Except.ok.injEq] at h
        cases h
        intro s hs
        rcases List.mem_cons.mp hs with hs | hs
        · subst hs
          exact ⟨mat, List.mem_cons_self _ _, hg⟩
        · obtain ⟨m2, hm2, hg2⟩ := ih he s hs
          exact ⟨m2, List.mem_cons_of_mem _ hm2, hg2⟩

theorem expand_inputs_eq_mapM (fuel : Nat) (inputs : List MaterialWithAmount)
    (batch r : ℚ) (u : UserInput) (rm : List (String × Recipe)) (mults : Multipliers) :
    expand_inputs fuel inputs batch r u rm mults =
      inputs.mapM (fun material =>
        get_requirements fuel material.name (r / batch * material.amount) u rm mults) := by
  induction inputs with
  | nil =>
    rw [List.mapM_nil]
    simp only [expand_inputs, Pure.pure, Except.pure]
  | cons mat rest ih =>
    rw [List.mapM_cons, ← ih]
    cases hg : get_requirements fuel mat.name (r / batch * mat.amount) u rm mults with
    | error e => simp [expand_inputs, hg, Bind.bind, Except.bind]
    | ok rr =>
      cases hrest : expand_inputs fuel rest batch r u rm mults with
      | error e => simp [expand_inputs, hg, hrest, Bind.bind, Except.bind]
      | ok rs =>
        simp [expand_inputs, hg, hrest, Bind.bind, Except.bind, Pure.pure, Except.pure]

/-! ### mergeInputs on a matching prefix -/

theorem mergeInputs_matching (s t : List MaterialWithAmount)
    (hlen : t.length ≤ s.length)
    (hnames : ∀ (i : Nat) (a b : MaterialWithAmount),
      s[i]? = some a → t[i]? = some b → a.name = b.name) :
    mergeInputs s t =
      .ok (List.zipWith (fun a b => ⟨a.name, a.amount + b.amount⟩) s t) := by
  induction t generalizing s with
  | nil => cases s <;> simp [mergeInputs]
  | cons b tb ih =>
    cases s with
    | nil => simp at hlen
    | cons a ta =>
      have hname : a.name = b.name := hnames 0 a b (by simp) (by simp)
      have hadd : a.add b = .ok ⟨a.name, a.amount + b.amount⟩ := by
        simp [MaterialWithAmount.add, hname]
      have hrec := ih ta (by simpa using hlen)
        (fun i x y hx hy => hnames (i + 1) x y
          (by rw [List.getElem?_cons_succ]; exact hx)
          (by rw [List.getElem?_cons_succ]; exact hy))
      simp [mergeInputs, hadd, hrec]

/-! ### dictInsert and build_recipe_map -/

theorem dictContains_iff {α : Type} {d : List (String × α)} {k : String} :
    dictContains d k = true ↔ k ∈ dictKeys d := by
  induction d with
  | nil => simp [dictContains, dictKeys]
  | cons p d ih =>
    by_cases hp : p.1 = k
    · simp [dictContains, dictKeys, hp]
    · simp [dictContains, dictKeys, hp, ih, Ne.symm hp]

theorem dictLookup_isSome_of_mem {α : Type} {d : List (String × α)} {k : String}
    (h : k ∈ dictKeys d) : ∃ v, dictLookup d k = some v := by
  cases hl : dictLookup d k with
  | none => exact absurd h (dictLookup_eq_none_iff.mp hl)
  | some v => exact ⟨v, rfl⟩

theorem dictLookup_dictInsert {α : Type} (d : List (String × α)) (k k' : String) (v : α) :
    dictLookup (dictInsert d k v) k' = if k = k' then some v else dictLookup d k' := by
  unfold dictInsert
  cases hc : dictContains d k with
  | true =>
    simp only [if_true]
    have hkmem : k ∈ dictKeys d := dictContains_iff.mp hc
    by_cases hk : k = k'
    · subst hk
      obtain ⟨s, hs⟩ := dictLookup_isSome_of_mem hkmem
      rw [dictLookup_update_of_some _ hs, if_pos rfl]
    · rw [dictLookup_update_ne _ (fun h => hk h.symm), if_neg hk]
  | false =>
    simp only [Bool.false_eq_true, if_false]
    have hknone : dictLookup d k = none :=
      dictLookup_eq_none_iff.mpr (fun hm => by rw [dictContains_iff.mpr hm] at hc; cases hc)
    by_cases hk : k = k'
    · subst hk
      rw [dictLookup_append_of_none _ hknone]
      simp
    · cases hl : dictLookup d k' with
      | some w => rw [dictLookup_append_of_some _ hl, if_neg hk]
      | none => rw [dictLookup_append_of_none _ hl]

theorem foldl_dictInsert_lookup (outs : List MaterialWithAmount) (v : Recipe)
    (acc : List (String × Recipe)) (m : String) :
    dictLookup (outs.foldl (fun a o => dictInsert a o.name v) acc) m =
      if outs.any (fun o => o.name == m) then some v else dictLookup acc m := by
  induction outs generalizing acc with
  | nil => simp
  | cons o rest ih =>
    simp only [List.foldl_cons, List.any_cons]
    rw [ih, dictLookup_dictInsert]
    by_cases ho : o.name = m
    · by_cases hr : rest.any (fun o => o.name == m) = true
      · simp [ho, hr]
      · simp [ho, hr]
    · by_cases hr : rest.any (fun o => o.name == m) = true
      · simp [ho, hr]
      · simp [ho, hr]

theorem getLast?_cons_exists {α : Type} (b : α) (l : List α) :
    ∃ x, (b :: l).getLast? = some x := by
  induction l generalizing b with
  | nil => exact ⟨b, rfl⟩
  | cons c l ih =>
    rw [List.getLast?_cons_cons]
    exact ih c

theorem getLast?_cons_eq {α : Type} (a : α) (l : List α) :
    (a :: l).getLast? =
      match l.getLast? with
      | some x => some x
      | none => some a := by
  cases l with
  | nil => rfl
  | cons b l =>
    rw [List.getLast?_cons_cons]
    obtain ⟨x, hx⟩ := getLast?_cons_exists b l
    rw [hx]

theorem build_fold_lookup (recipes : List Recipe) (acc : List (String × Recipe))
    (m : String) :
    dictLookup (recipes.foldl
        (fun acc recipe =>
          if recipe.enabled then registerRecipeOutputs acc recipe else acc) acc) m =
      match last_enabled_producer_spec recipes m with
      | some r => some r
      | none => dictLookup acc m := by
  induction recipes generalizing acc with
  | nil => simp [last_enabled_producer_spec]
  | cons r rest ih =>
    simp only [List.foldl_cons]
    rw [ih]
    have hstep : dictLookup (if r.enabled = true then registerRecipeOutputs acc r else acc) m =
        if (r.enabled && r.output.any (fun o => o.name == m)) = true then some r
        else dictLookup acc m := by
      by_cases he : r.enabled = true
      · rw [if_pos he]
        unfold registerRecipeOutputs
        rw [foldl_dictInsert_lookup]
        by_cases ha : (r.output.any fun o => o.name == m) = true
        · rw [if_pos ha, if_pos (by simp [he, ha])]
        · rw [if_neg ha, if_neg (by simp [ha])]
      · rw [if_neg he, if_neg (by simp [he])]
    rw [hstep]
    unfold last_enabled_producer_spec
    rw [List.filter_cons]
    by_cases hp : (r.enabled && r.output.any fun o => o.name == m) = true
    · rw [if_pos hp, if_pos hp, getLast?_cons_eq]
      cases (List.filter (fun r => r.enabled && r.output.any fun o => o.name == m)
          rest).getLast? with
      | some x => rfl
      | none => rfl
    · rw [if_neg hp, if_neg hp]

theorem build_recipe_map_lookup (recipes : List Recipe) (m : String) :
    dictLookup (build_recipe_map recipes) m = last_enabled_producer_spec recipes m := by
  unfold build_recipe_map
  rw [build_fold_lookup]
  cases last_enabled_producer_spec recipes m with
  | some r => rfl
  | none => rfl

/-! ### Heap-model lemmas -/

theorem dictKeys_append_general {α : Type} (d1 d2 : List (String × α)) :
    dictKeys (d1 ++ d2) = dictKeys d1 ++ dictKeys d2 := by
  simp [dictKeys]

theorem mergeHeapOne_disjoint (req : RefMap) (heap : List RequirementForMaterial)
    (merged : RefMap) (hnd : (dictKeys merged ++ dictKeys req).Nodup) :
    mergeHeapOne (heap, merged) req = .ok (heap, merged ++ req) := by
  induction req generalizing merged with
  | nil =>
    simp only [mergeHeapOne, List.foldlM_nil, List.append_nil]
    rfl
  | cons e rest ih =>
    have hke : e.1 ∉ dictKeys merged := by
      intro hm
      rcases List.nodup_append.mp hnd with ⟨h1, h2, hdisj⟩
      exact hdisj hm (by simp [dictKeys])
    have hnone : dictLookup merged e.1 = none := dictLookup_eq_none_iff.mpr hke
    have hstep : mergeHeapStep (heap, merged) e = .ok (heap, merged ++ [e]) := by
      simp [mergeHeapStep, hnone]
    simp only [mergeHeapOne, List.foldlM_cons, hstep, Bind.bind, Except.bind]
    have hnd2 : (dictKeys (merged ++ [e]) ++ dictKeys rest).Nodup := by
      rw [dictKeys_append_general]
      simpa [dictKeys, List.append_assoc] using hnd
    have := ih (merged ++ [e]) hnd2
    simpa [mergeHeapOne, List.append_assoc] using this

theorem mergeHeapFold_disjoint (reqs : List RefMap) (heap : List RequirementForMaterial) :
    ∀ merged, (dictKeys merged ++ (reqs.map dictKeys).flatten).Nodup →
      reqs.foldlM mergeHeapOne (heap, merged) = .ok (heap, merged ++ reqs.flatten) := by
  induction reqs with
  | nil =>
    intro merged h
    simp only [List.foldlM_nil, List.flatten_nil, List.append_nil]
    rfl
  | cons r rest ih =>
    intro merged h
    have h1 : (dictKeys merged ++ dictKeys r).Nodup := by
      refine List.Sublist.nodup ?_ h
      rw [List.map_cons, List.flatten_cons, ← List.append_assoc]
      exact List.sublist_append_left _ _
    simp only [List.foldlM_cons]
    rw [mergeHeapOne_disjoint r heap merged h1]
    simp only [Bind.bind, Except.bind]
    have h2 : (dictKeys (merged ++ r) ++ (rest.map dictKeys).flatten).Nodup := by
      rw [dictKeys_append_general]
      simpa [List.append_assoc] using h
    have := ih (merged ++ r) h2
    simpa [List.append_assoc] using this

theorem merge_requirements_heap_disjoint (reqs : List RefMap)
    (heap : List RequirementForMaterial)
    (hnd : ((reqs.map dictKeys).flatten).Nodup) :
    merge_requirements_heap reqs heap = .ok (heap, reqs.flatten) := by
  unfold merge_requirements_heap
  have := mergeHeapFold_disjoint reqs heap [] (by simpa [dictKeys] using hnd)
  simpa using this

/-! ### The element-wise input merge is insensitive to the operand order -/

theorem mergeInputs_comm {s t r1 r2 : List MaterialWithAmount}
    (h1 : mergeInputs s t = .ok r1) (h2 : mergeInputs t s = .ok r2) : r1 = r2 := by
  induction s generalizing t r1 r2 with
  | nil =>
    cases t with
    | nil =>
      simp only [mergeInputs, Except.ok.injEq] at h1 h2
      rw [← h1, ← h2]
    | cons b tb => simp [mergeInputs] at h1
  | cons a sa ih =>
    cases t with
    | nil => simp [mergeInputs] at h2
    | cons b tb =>
      cases hab : a.add b with
      | error e => simp [mergeInputs, hab] at h1
      | ok hh =>
        cases hrec1 : mergeInputs sa tb with
        | error e => simp [mergeInputs, hab, hrec1] at h1
        | ok rest1 =>
          cases hba : b.add a with
          | error e => simp [mergeInputs, hba] at h2
          | ok hh2 =>
            cases hrec2 : mergeInputs tb sa with
            | error e => simp [mergeInputs, hba, hrec2] at h2
            | ok rest2 =>
              simp only [mergeInputs, hab, hrec1, Except.ok.injEq] at h1
              simp only [mergeInputs, hba, hrec2, Except.ok.injEq] at h2
              have hname : a.name = b.name := by
                by_contra hne
                simp [MaterialWithAmount.add, hne] at hab
              have e1 : hh = ⟨b.name, a.amount + b.amount⟩ := by
                simp only [MaterialWithAmount.add, hname, ne_eq,
                  not_true_eq_false, if_false, Except.ok.injEq] at hab
                exact hab.symm
              have e2 : hh2 = ⟨b.name, b.amount + a.amount⟩ := by
                simp only [MaterialWithAmount.add, hname, ne_eq,
                  not_true_eq_false, if_false, Except.ok.injEq] at hba
                exact hba.symm
              rw [← h1, ← h2, e1, e2, add_comm a.amount b.amount, ih hrec1 hrec2]

/-! ### Lookup characterization of merging one map into an accumulator -/

theorem mergeStep_ok_of_lookup {acc acc' : Requirements}
    {e : String × RequirementForMaterial} {s : RequirementForMaterial}
    (h : mergeStep acc e = .ok acc') (hl : dictLookup acc e.1 = some s) :
    ∃ inp, mergeInputs s.input e.2.input = .ok inp ∧
      acc' = dictUpdate acc e.1 (combineEntry s e.2 inp) := by
  cases hm : mergeInputs s.input e.2.input with
  | error msg =>
    simp only [mergeStep, hl, hm] at h
    exact Except.noConfusion h
  | ok newInput =>
    simp only [mergeStep, hl, hm, Except.ok.injEq] at h
    exact ⟨newInput, rfl, h.symm⟩

theorem mergeStep_ok_of_lookup_none {acc acc' : Requirements}
    {e : String × RequirementForMaterial}
    (h : mergeStep acc e = .ok acc') (hl : dictLookup acc e.1 = none) :
    acc' = acc ++ [e] := by
  simp only [mergeStep, hl, Except.ok.injEq] at h
  exact h.symm

theorem mergeOne_disjoint (req acc : Requirements)
    (hnd : (dictKeys acc ++ dictKeys req).Nodup) :
    mergeOne acc req = .ok (acc ++ req) := by
  induction req generalizing acc with
  | nil =>
    simp only [mergeOne, List.foldlM_nil, List.append_nil]
    rfl
  | cons e rest ih =>
    have hke : e.1 ∉ dictKeys acc := by
      intro hm
      rcases List.nodup_append.mp hnd with ⟨h1, h2, hdisj⟩
      exact hdisj hm (by simp [dictKeys])
    have hnone : dictLookup acc e.1 = none := dictLookup_eq_none_iff.mpr hke
    have hstep : mergeStep acc e = .ok (acc ++ [e]) := by
      simp [mergeStep, hnone]
    simp only [mergeOne, List.foldlM_cons, hstep, Bind.bind, Except.bind]
    have hnd2 : (dictKeys (acc ++ [e]) ++ dictKeys rest).Nodup := by
      rw [dictKeys_append_general]
      simpa [dictKeys, List.append_assoc] using hnd
    have := ih (acc ++ [e]) hnd2
    simpa [mergeOne, List.append_assoc] using this

theorem mergeOne_ok_lookup_req {acc req R : Requirements} {k : String}
    (h : mergeOne acc req = .ok R) (hacc : k ∉ dictKeys acc)
    (hreq : (dictKeys req).Nodup) (hk : k ∈ dictKeys req) :
    dictLookup R k = dictLookup req k := by
  induction req generalizing acc with
  | nil => simp [dictKeys] at hk
  | cons e rest ih =>
    simp only [mergeOne, List.foldlM_cons] at h
    obtain ⟨acc', h1, h2⟩ := except_bind_ok h
    simp only [dictKeys, List.map_cons, List.nodup_cons] at hreq
    by_cases hke : k = e.1
    · have hnonek : dictLookup acc k = none := dictLookup_eq_none_iff.mpr hacc
      have hnone : dictLookup acc e.1 = none := by
        rw [← hke]
        exact hnonek
      have hacc' : acc' = acc ++ [e] := mergeStep_ok_of_lookup_none h1 hnone
      have hnot_rest : k ∉ dictKeys rest := by
        rw [hke]
        simpa [dictKeys] using hreq.1
      rw [mergeOne_ok_lookup_of_not_mem h2 hnot_rest, hacc',
        dictLookup_append_of_none _ hnonek]
      simp [dictLookup, hke]
    · have hk' : k ∈ dictKeys rest := by
        simp only [dictKeys, List.map_cons, List.mem_cons] at hk
        rcases hk with hk | hk
        · exact absurd hk hke
        · simpa [dictKeys] using hk
      have hacc'k : k ∉ dictKeys acc' := by
        rw [mergeStep_ok_mem h1 k]
        rintro (hm | hm)
        · exact hacc hm
        · exact hke hm
      rw [ih h2 hacc'k (by simpa [dictKeys] using hreq.2) hk']
      have hne : ¬ e.1 = k := fun hkk => hke hkk.symm
      simp [dictLookup, hne]

theorem mergeOne_ok_lookup_both {acc req R : Requirements} {k : String}
    {s i : RequirementForMaterial}
    (h : mergeOne acc req = .ok R)
    (hndacc : (dictKeys acc).Nodup) (hndreq : (dictKeys req).Nodup)
    (hs : dictLookup acc k = some s) (hi : dictLookup req k = some i) :
    ∃ inp, mergeInputs s.input i.input = .ok inp ∧
      dictLookup R k = some (combineEntry s i inp) := by
  induction req generalizing acc with
  | nil => simp [dictLookup] at hi
  | cons e rest ih =>
    simp only [mergeOne, List.foldlM_cons] at h
    obtain ⟨acc', h1, h2⟩ := except_bind_ok h
    simp only [dictKeys, List.map_cons, List.nodup_cons] at hndreq
    by_cases hke : e.1 = k
    · have hie : i = e.2 := by
        simp only [dictLookup, hke, if_true, Option.some.injEq] at hi
        exact hi.symm
      subst hie
      have hs' : dictLookup acc e.1 = some s := by
        rw [hke]
        exact hs
      obtain ⟨inp, hinp, hacc'⟩ := mergeStep_ok_of_lookup h1 hs'
      refine ⟨inp, hinp, ?_⟩
      have hnot_rest : k ∉ dictKeys rest := by
        rw [← hke]
        simpa [dictKeys] using hndreq.1
      rw [mergeOne_ok_lookup_of_not_mem h2 hnot_rest, hacc', ← hke]
      exact dictLookup_update_of_some _ hs'
    · have hi' : dictLookup rest k = some i := by
        simpa [dictLookup, hke] using hi
      have hs'' : dictLookup acc' k = some s := by
        rw [mergeStep_ok_lookup_ne h1 (fun hkk => hke hkk.symm)]
        exact hs
      have hnd' : (dictKeys acc').Nodup := mergeStep_ok_nodup h1 hndacc
      exact ih h2 hnd' (by simpa [dictKeys] using hndreq.2) hs'' hi'

/-- Merging exactly two maps, the first of which has unique keys, is merging
the second into the first. -/
theorem merge_two_ok {X Y Z : Requirements} (hX : (dictKeys X).Nodup)
    (h : merge_requirements [X, Y] = .ok Z) : mergeOne X Y = .ok Z := by
  simp only [merge_requirements, List.foldlM_cons, List.foldlM_nil] at h
  obtain ⟨a, ha, h2⟩ := except_bind_ok h
  have hfirst : mergeOne [] X = .ok X := by
    have := mergeOne_disjoint X [] (by simpa [dictKeys] using hX)
    simpa using this
  rw [hfirst] at ha
  cases ha
  obtain ⟨b, hb, hp⟩ := except_bind_ok h2
  have hbZ : b = Z := by
    simpa [pure, Except.pure] using hp
  rw [← hbZ]
  exact hb

/-! ### Concrete fixtures used by the witnesses -/

/-- A concrete user choice: assembler variant with multiplier 1. -/
def uiW : UserInput :=
  ⟨"Gear", 2, "Assembling Machine Mk.1", "Smelter", "Chemical Plant", 3⟩

/-- Concrete multiplier tables, all chosen variants at speed 1. -/
def multW : Multipliers :=
  ⟨[("Assembling Machine Mk.1", 1)], [("Smelter", 1)], [("Chemical Plant", 1)]⟩

/-- The Gear recipe of the spec scenario: one Iron Plate in, one Gear out,
assembler, duration 1. -/
def gearRecipe : Recipe := ⟨[⟨"Iron Plate", 1⟩], [⟨"Gear", 1⟩], "Assembler", 1, true⟩

/-- Recipe index producing only Gear; Iron Plate is raw. -/
def rmapW : List (String × Recipe) := [("Gear", gearRecipe)]

/-- User choice for the two-branch fixture. -/
def uiT : UserInput := ⟨"T", 1, "A1", "S1", "C1", 3⟩

/-- Multiplier tables for the two-branch fixture. -/
def multT : Multipliers := ⟨[("A1", 1)], [("S1", 1)], [("C1", 1)]⟩

/-- X consumes one M. -/
def xRecipe : Recipe := ⟨[⟨"M", 1⟩], [⟨"X", 1⟩], "Assembler", 1, true⟩

/-- Y consumes two M. -/
def yRecipe : Recipe := ⟨[⟨"M", 2⟩], [⟨"Y", 1⟩], "Assembler", 1, true⟩

/-- T consumes one X and one Y, so M is demanded by two branches. -/
def tRecipe : Recipe := ⟨[⟨"X", 1⟩, ⟨"Y", 1⟩], [⟨"T", 1⟩], "Assembler", 1, true⟩

/-- Recipe index of the two-branch fixture; M is raw. -/
def rmapT : List (String × Recipe) := [("T", tRecipe), ("X", xRecipe), ("Y", yRecipe)]

/-! ### Claims -/

/-- C4: for every material name absent from the recipe index and every rate r,
get_requirements returns exactly the singleton map sending that material to a
RequirementForMaterial with rate r, an empty building (empty name, zero
amount) and an empty input list — and it does so already at recursion budget
one, i.e. without any recursive call. -/
theorem C4_leaf_property (fuel : Nat) (target_material : String) (target_rate : ℚ)
    (user_input : UserInput) (recipe_map : List (String × Recipe))
    (multipliers : Multipliers)
    (h : dictLookup recipe_map target_material = none) :
    get_requirements (fuel + 1) target_material target_rate user_input recipe_map
        multipliers =
      .ok [(target_material, ⟨target_rate, ⟨"", 0⟩, []⟩)] :=
  get_requirements_leaf_eq fuel target_material target_rate user_input recipe_map
    multipliers h

theorem C4_leaf_property_witness :
    dictLookup rmapW "Iron Plate" = none ∧
    get_requirements 1 "Iron Plate" 5 uiW rmapW multW =
      .ok [("Iron Plate", ⟨5, ⟨"", 0⟩, []⟩)] :=
  ⟨rfl, C4_leaf_property 0 "Iron Plate" 5 uiW rmapW multW rfl⟩

/-- The loop of find_recipe_output_material finds nothing exactly when no
output entry carries the target name. -/
theorem find_output_eq_none_iff {outs : List MaterialWithAmount} {t : String} :
    find_output outs t = none ↔ ∀ o ∈ outs, o.name ≠ t := by
  induction outs with
  | nil => simp [find_output]
  | cons o rest ih =>
    by_cases ho : o.name = t
    · simp [find_output, ho]
    · simp [find_output, ho, ih]

/-- C8: when the index entry for the target points to a recipe whose output
list has no entry named after the target, get_requirements raises the
"Material not found in recipe output" error instead of returning a result. -/
theorem C8_output_not_found (fuel : Nat) (target_material : String) (target_rate : ℚ)
    (user_input : UserInput) (recipe_map : List (String × Recipe))
    (multipliers : Multipliers) {recipe : Recipe}
    (hl : dictLookup recipe_map target_material = some recipe)
    (hout : ∀ o ∈ recipe.output, o.name ≠ target_material) :
    get_requirements (fuel + 1) target_material target_rate user_input recipe_map
        multipliers =
      .error ("Material not found in recipe output: " ++ target_material) := by
  have hfr : find_recipe_output_material recipe target_material =
      .error ("Material not found in recipe output: " ++ target_material) := by
    unfold find_recipe_output_material
    rw [find_output_eq_none_iff.mpr hout]
  simp only [get_requirements, hl, hfr]

theorem C8_output_not_found_witness :
    dictLookup [("T", xRecipe)] "T" = some xRecipe ∧
    (∀ o ∈ xRecipe.output, o.name ≠ "T") ∧
    get_requirements 1 "T" 1 uiT [("T", xRecipe)] multT =
      .error ("Material not found in recipe output: " ++ "T") :=
  ⟨rfl, by decide, C8_output_not_found 0 "T" 1 uiT [("T", xRecipe)] multT rfl (by decide)⟩

/-- C9: every recipe stored as a value in the index built by build_recipe_map
is enabled; no material is mapped to a disabled recipe. -/
theorem C9_index_only_enabled (recipes : List Recipe) (m : String) (r : Recipe)
    (h : dictLookup (build_recipe_map recipes) m = some r) : r.enabled = true := by
  rw [build_recipe_map_lookup] at h
  unfold last_enabled_producer_spec at h
  have hmem := List.mem_of_mem_getLast? h
  have hp := List.of_mem_filter hmem
  exact (Bool.and_eq_true _ _).mp hp |>.1

theorem C9_index_only_enabled_witness :
    dictLookup (build_recipe_map [gearRecipe]) "Gear" = some gearRecipe ∧
    gearRecipe.enabled = true :=
  ⟨rfl, C9_index_only_enabled [gearRecipe] "Gear" gearRecipe rfl⟩

/-- An enabled recipe producing M in an assembler. -/
def recipeMA : Recipe := ⟨[], [⟨"M", 1⟩], "Assembler", 1, true⟩

/-- A second enabled recipe producing M in a smelting facility. -/
def recipeMB : Recipe := ⟨[], [⟨"M", 1⟩], "Smelting Facility", 1, true⟩

/-- C6 counterexample: with two enabled recipes both listing output M, the
index maps M to the second recipe in catalog order, not the first — the
first match does not win. -/
theorem C6_counterexample :
    dictLookup (build_recipe_map [recipeMA, recipeMB]) "M" = some recipeMB ∧
    recipeMB ≠ recipeMA :=
  ⟨rfl, by decide⟩

/-- C6 amended: when several enabled recipes list the same output material,
the recipe index built by build_recipe_map maps that material to the LAST
such recipe in catalog order (the later binding overwrites the earlier). -/
theorem C6_last_match_wins (recipes : List Recipe) (m : String) :
    dictLookup (build_recipe_map recipes) m = last_enabled_producer_spec recipes m :=
  build_recipe_map_lookup recipes m

/-- C3: for a crafted target whose matching output entry has batch amount
out.amount, get_requirements at rate r is exactly the composition of one
recursive call per ingredient i at rate r / batch * amount_i (in order)
with the building computation and final merge. -/
theorem C3_conservation (fuel : Nat) (target_material : String) (target_rate : ℚ)
    (user_input : UserInput) (recipe_map : List (String × Recipe))
    (multipliers : Multipliers) {recipe : Recipe}
    (hl : dictLookup recipe_map target_material = some recipe)
    {out : MaterialWithAmount}
    (hf : find_recipe_output_material recipe target_material = .ok out) :
    get_requirements (fuel + 1) target_material target_rate user_input recipe_map
        multipliers =
      (recipe.input.mapM (fun material =>
        get_requirements fuel material.name
          (target_rate / out.amount * material.amount) user_input recipe_map
          multipliers)) >>=
        after_sub_results target_material target_rate user_input recipe out
          multipliers := by
  rw [get_requirements_crafted_eq fuel target_material target_rate user_input
    recipe_map multipliers hl hf]
  rw [← expand_inputs_eq_mapM]
  cases expand_inputs fuel recipe.input out.amount target_rate user_input recipe_map
      multipliers with
  | error e => simp [Bind.bind, Except.bind]
  | ok subs => simp [Bind.bind, Except.bind]

theorem C3_conservation_witness :
    get_requirements 2 "Gear" 2 uiW rmapW multW =
      (gearRecipe.input.mapM (fun material =>
        get_requirements 1 material.name (2 / (1 : ℚ) * material.amount) uiW rmapW
          multW)) >>=
        after_sub_results "Gear" 2 uiW gearRecipe ⟨"Gear", 1⟩ multW :=
  C3_conservation 1 "Gear" 2 uiW rmapW multW rfl rfl

/-- C5 counterexample: merging [X, Y] and [Y, X] for maps sharing material M
yields entries with different building names (the incoming name overwrites),
so the two merges are not equal. -/
theorem C5_counterexample :
    merge_requirements [[("M", ⟨1, ⟨"B1", 1⟩, []⟩)], [("M", ⟨2, ⟨"B2", 2⟩, []⟩)]] =
      .ok [("M", ⟨1 + 2, ⟨"B2", 1 + 2⟩, []⟩)] ∧
    merge_requirements [[("M", ⟨2, ⟨"B2", 2⟩, []⟩)], [("M", ⟨1, ⟨"B1", 1⟩, []⟩)]] =
      .ok [("M", ⟨2 + 1, ⟨"B1", 2 + 1⟩, []⟩)] ∧
    dictLookup [("M", (⟨1 + 2, ⟨"B2", 1 + 2⟩, []⟩ : RequirementForMaterial))] "M" ≠
      dictLookup [("M", (⟨2 + 1, ⟨"B1", 2 + 1⟩, []⟩ : RequirementForMaterial))] "M" :=
  ⟨rfl, rfl, by
    simp [dictLookup, RequirementForMaterial.mk.injEq, MaterialWithAmount.mk.injEq]⟩

/-- C5 amended: for requirement maps X and Y (unique keys, as Python dicts
have), merge_requirements [X, Y] and merge_requirements [Y, X], whenever
both succeed, contain the same set of materials and agree on the rate, the
building amount and the input breakdown of every material; only the
building name — overwritten by the last-merged operand's name — may
differ, as the counterexample shows. -/
theorem C5_merge_comm_entries (X Y : Requirements) {Z1 Z2 : Requirements}
    (hX : (dictKeys X).Nodup) (hY : (dictKeys Y).Nodup)
    (h1 : merge_requirements [X, Y] = .ok Z1)
    (h2 : merge_requirements [Y, X] = .ok Z2) (k : String) :
    (k ∈ dictKeys Z1 ↔ k ∈ dictKeys Z2) ∧
    (∀ e1 e2, dictLookup Z1 k = some e1 → dictLookup Z2 k = some e2 →
      e1.rate = e2.rate ∧ e1.building.amount = e2.building.amount ∧
      e1.input = e2.input) := by
  have hswap : ∀ (r : Requirements), r ∈ [X, Y] ↔ r ∈ [Y, X] := by
    intro r
    simp [or_comm]
  have hZ1 : mergeOne X Y = .ok Z1 := merge_two_ok hX h1
  have hZ2 : mergeOne Y X = .ok Z2 := merge_two_ok hY h2
  constructor
  · rw [merge_requirements_ok_mem h1 k, merge_requirements_ok_mem h2 k]
    exact ⟨fun ⟨r, hr, hm⟩ => ⟨r, (hswap r).mp hr, hm⟩,
           fun ⟨r, hr, hm⟩ => ⟨r, (hswap r).mpr hr, hm⟩⟩
  · intro e1 e2 he1 he2
    by_cases hkX : k ∈ dictKeys X
    · by_cases hkY : k ∈ dictKeys Y
      · obtain ⟨x, hx⟩ := dictLookup_isSome_of_mem hkX
        obtain ⟨y, hy⟩ := dictLookup_isSome_of_mem hkY
        obtain ⟨inp1, hinp1, hl1⟩ := mergeOne_ok_lookup_both hZ1 hX hY hx hy
        obtain ⟨inp2, hinp2, hl2⟩ := mergeOne_ok_lookup_both hZ2 hY hX hy hx
        rw [he1] at hl1
        rw [he2] at hl2
        have hE1 : e1 = combineEntry x y inp1 := Option.some.inj hl1
        have hE2 : e2 = combineEntry y x inp2 := Option.some.inj hl2
        have hinp : inp1 = inp2 := mergeInputs_comm hinp1 hinp2
        rw [hE1, hE2, hinp]
        exact ⟨add_comm x.rate y.rate, add_comm x.building.amount y.building.amount,
          rfl⟩
      · have hl1 : dictLookup Z1 k = dictLookup X k :=
          mergeOne_ok_lookup_of_not_mem hZ1 hkY
        have hl2 : dictLookup Z2 k = dictLookup X k :=
          mergeOne_ok_lookup_req hZ2 hkY hX hkX
        rw [he1] at hl1
        rw [he2] at hl2
        have he : e1 = e2 := Option.some.inj (hl1.trans hl2.symm)
        rw [he]
        exact ⟨rfl, rfl, rfl⟩
    · by_cases hkY : k ∈ dictKeys Y
      · have hl1 : dictLookup Z1 k = dictLookup Y k :=
          mergeOne_ok_lookup_req hZ1 hkX hY hkY
        have hl2 : dictLookup Z2 k = dictLookup Y k :=
          mergeOne_ok_lookup_of_not_mem hZ2 hkX
        rw [he1] at hl1
        rw [he2] at hl2
        have he : e1 = e2 := Option.some.inj (hl1.trans hl2.symm)
        rw [he]
        exact ⟨rfl, rfl, rfl⟩
      · exfalso
        have hmem := mem_dictKeys_of_lookup he1
        rw [mergeOne_ok_mem hZ1 k] at hmem
        rcases hmem with hm | hm
        · exact hkX hm
        · exact hkY hm

theorem C5_merge_comm_entries_witness :
    ((("A" : String) ∈ dictKeys
        [("A", (⟨1, ⟨"B1", 1⟩, []⟩ : RequirementForMaterial)),
         ("B", (⟨2, ⟨"B2", 2⟩, []⟩ : RequirementForMaterial))]) ↔
      ("A" : String) ∈ dictKeys
        [("B", (⟨2, ⟨"B2", 2⟩, []⟩ : RequirementForMaterial)),
         ("A", (⟨1, ⟨"B1", 1⟩, []⟩ : RequirementForMaterial))]) ∧
    (∀ e1 e2,
      dictLookup
        [("A", (⟨1, ⟨"B1", 1⟩, []⟩ : RequirementForMaterial)),
         ("B", (⟨2, ⟨"B2", 2⟩, []⟩ : RequirementForMaterial))] "A" = some e1 →
      dictLookup
        [("B", (⟨2, ⟨"B2", 2⟩, []⟩ : RequirementForMaterial)),
         ("A", (⟨1, ⟨"B1", 1⟩, []⟩ : RequirementForMaterial))] "A" = some e2 →
      e1.rate = e2.rate ∧ e1.building.amount = e2.building.amount ∧
      e1.input = e2.input) :=
  C5_merge_comm_entries [("A", ⟨1, ⟨"B1", 1⟩, []⟩)] [("B", ⟨2, ⟨"B2", 2⟩, []⟩)]
    (by decide) (by decide) rfl rfl "A"

/-- C7 counterexample: the two argument maps share material M through
references 0 and 1; merging succeeds, and afterwards the object referenced
by the first argument map (address 0) reads the merged value, rate 3 and
building (B2, 3), no longer its pre-call value, rate 1 and building (B1, 1):
the first argument map's observable entry has changed. -/
theorem C7_counterexample :
    merge_requirements_heap [[("M", 0)], [("M", 1)]]
        [⟨1, ⟨"B1", 1⟩, []⟩, ⟨2, ⟨"B2", 2⟩, []⟩] =
      .ok ([⟨1 + 2, ⟨"B2", 1 + 2⟩, []⟩, ⟨2, ⟨"B2", 2⟩, []⟩], [("M", 0)]) ∧
    ([⟨1, ⟨"B1", 1⟩, []⟩, ⟨2, ⟨"B2", 2⟩, []⟩] :
        List RequirementForMaterial)[0]? = some ⟨1, ⟨"B1", 1⟩, []⟩ ∧
    ([⟨1 + 2, ⟨"B2", 1 + 2⟩, []⟩, ⟨2, ⟨"B2", 2⟩, []⟩] :
        List RequirementForMaterial)[0]? = some ⟨1 + 2, ⟨"B2", 1 + 2⟩, []⟩ ∧
    (⟨1, ⟨"B1", 1⟩, []⟩ : RequirementForMaterial) ≠ ⟨1 + 2, ⟨"B2", 1 + 2⟩, []⟩ :=
  ⟨rfl, rfl, rfl, by
    simp [RequirementForMaterial.mk.injEq, MaterialWithAmount.mk.injEq]⟩

/-- C7 amended: merge_requirements returns a new merged map, but its entries
alias the argument maps' objects, and a repeated material mutates the
first-seen object in place; when every material occurs in at most one
argument map, the heap — and with it every argument map's observable
entries — is left unchanged and the merged map is the concatenation. -/
theorem C7_no_mutation_when_disjoint (reqs : List RefMap)
    (heap : List RequirementForMaterial)
    (hnd : ((reqs.map dictKeys).flatten).Nodup) :
    merge_requirements_heap reqs heap = .ok (heap, reqs.flatten) :=
  merge_requirements_heap_disjoint reqs heap hnd

theorem C7_no_mutation_when_disjoint_witness :
    ((([[("A", 0)], [("B", 1)]] : List RefMap).map dictKeys).flatten).Nodup ∧
    merge_requirements_heap [[("A", 0)], [("B", 1)]]
        [⟨1, ⟨"B1", 1⟩, []⟩, ⟨2, ⟨"B2", 2⟩, []⟩] =
      .ok ([⟨1, ⟨"B1", 1⟩, []⟩, ⟨2, ⟨"B2", 2⟩, []⟩], [("A", 0), ("B", 1)]) :=
  ⟨by decide,
   C7_no_mutation_when_disjoint [[("A", 0)], [("B", 1)]]
     [⟨1, ⟨"B1", 1⟩, []⟩, ⟨2, ⟨"B2", 2⟩, []⟩] (by decide)⟩

/-- C10 counterexample: an incoming entry whose input list is strictly
shorter than the stored entry's (length 1 versus 2) does raise an error when
the names on the common prefix differ, because the element-wise addition of
MaterialWithAmount refuses different names. -/
theorem C10_counterexample :
    merge_requirements
        [[("M", ⟨1, ⟨"", 0⟩, [⟨"A", 1⟩, ⟨"B", 2⟩]⟩)],
         [("M", ⟨1, ⟨"", 0⟩, [⟨"C", 3⟩]⟩)]] =
      .error "Cannot add materials with different names" := by decide

/-- C10 amended: merging an incoming entry with a strictly shorter input
list raises no error PROVIDED the ingredient names match position-wise on
the common prefix; the merged input list then has the incoming entry's
length — the element-wise sums over the common prefix — and the stored
entry's trailing ingredients are silently dropped. -/
theorem C10_shorter_incoming (k : String) (s t : RequirementForMaterial)
    (hlen : t.input.length < s.input.length)
    (hnames : ∀ (i : Nat) (a b : MaterialWithAmount),
      s.input[i]? = some a → t.input[i]? = some b → a.name = b.name) :
    merge_requirements [[(k, s)], [(k, t)]] =
      .ok [(k, ⟨s.rate + t.rate,
        ⟨t.building.name, s.building.amount + t.building.amount⟩,
        List.zipWith (fun a b => ⟨a.name, a.amount + b.amount⟩) s.input t.input⟩)] ∧
    (List.zipWith (fun a b : MaterialWithAmount =>
        (⟨a.name, a.amount + b.amount⟩ : MaterialWithAmount))
      s.input t.input).length = t.input.length := by
  have hm := mergeInputs_matching s.input t.input (le_of_lt hlen) hnames
  constructor
  · simp only [merge_requirements, List.foldlM_cons, List.foldlM_nil, mergeOne,
      Bind.bind, Except.bind, mergeStep, dictLookup, eq_self_iff_true, if_true,
      hm, dictUpdate, combineEntry, List.nil_append, Pure.pure, Except.pure]
  · rw [List.length_zipWith]
    exact min_eq_right (le_of_lt hlen)

theorem C10_shorter_incoming_witness :
    merge_requirements
        [[("M", ⟨1, ⟨"", 0⟩, [⟨"A", 1⟩, ⟨"B", 2⟩]⟩)],
         [("M", ⟨1, ⟨"", 0⟩, [⟨"A", 3⟩]⟩)]] =
      .ok [("M", ⟨1 + 1, ⟨"", 0 + 0⟩,
        List.zipWith (fun a b : MaterialWithAmount =>
            (⟨a.name, a.amount + b.amount⟩ : MaterialWithAmount))
          ([⟨"A", 1⟩, ⟨"B", 2⟩] : List MaterialWithAmount)
          ([⟨"A", 3⟩] : List MaterialWithAmount)⟩)] ∧
    (List.zipWith (fun a b : MaterialWithAmount =>
        (⟨a.name, a.amount + b.amount⟩ : MaterialWithAmount))
      [⟨"A", 1⟩, ⟨"B", 2⟩] [⟨"A", 3⟩]).length =
      ([⟨"A", 3⟩] : List MaterialWithAmount).length :=
  C10_shorter_incoming "M" ⟨1, ⟨"", 0⟩, [⟨"A", 1⟩, ⟨"B", 2⟩]⟩ ⟨1, ⟨"", 0⟩, [⟨"A", 3⟩]⟩
    (by decide)
    (fun i a b ha hb => by
      match i with
      | 0 =>
        simp only [List.getElem?_cons_zero, Option.some.injEq] at ha hb
        rw [← ha, ← hb]
      | Nat.succ n =>
        rw [List.getElem?_cons_succ] at hb
        simp at hb)

/-- Sum of a field over maps that all avoid material M vanishes. -/
theorem fieldSum_sum_zero (f : RequirementForMaterial → ℚ) {M : String}
    {L : List Requirements} (hL : ∀ r ∈ L, M ∉ dictKeys r) :
    ((L.map (fun r => fieldSum f r M)).sum) = 0 := by
  induction L with
  | nil => simp
  | cons r rest ih =>
    simp only [List.map_cons, List.sum_cons]
    rw [fieldSum_eq_zero_of_not_mem (hL r (by simp)),
      ih (fun x hx => hL x (by simp [hx]))]
    ring

/-- C2: for a crafted target resolved at rate r whose producing recipe has
duration d and matching output entry of batch amount b, and whose facility
class resolves to building name bname and multiplier m, the entry produced
for the target has rate r, building name bname and building amount exactly
r * d / (b * m).  The hypothesis that the target does not reappear in the
ingredient sub-results is the acyclicity precondition of the spec. -/
theorem C2_building_count (fuel : Nat) (target_material : String) (target_rate : ℚ)
    (user_input : UserInput) (recipe_map : List (String × Recipe))
    (multipliers : Multipliers) {recipe : Recipe} {out : MaterialWithAmount}
    {subs : List Requirements} {bname : String} {mult : ℚ} {R : Requirements}
    (hl : dictLookup recipe_map target_material = some recipe)
    (hf : find_recipe_output_material recipe target_material = .ok out)
    (hsubs : expand_inputs fuel recipe.input out.amount target_rate user_input
        recipe_map multipliers = .ok subs)
    (hb : user_input.building_for_facility recipe.made_in = .ok bname)
    (hm : user_input.multiplier_for_facility multipliers recipe.made_in = .ok mult)
    (hcycle : ∀ s ∈ subs, target_material ∉ dictKeys s)
    (hok : get_requirements (fuel + 1) target_material target_rate user_input
        recipe_map multipliers = .ok R) :
    ∃ e, dictLookup R target_material = some e ∧
      e.rate = target_rate ∧
      e.building.name = bname ∧
      e.building.amount = target_rate * recipe.duration / (out.amount * mult) := by
  rw [get_requirements_crafted_eq fuel target_material target_rate user_input
    recipe_map multipliers hl hf] at hok
  simp only [hsubs] at hok
  unfold after_sub_results at hok
  simp only [hb, hm] at hok
  have hlast := merge_requirements_last_singleton hok hcycle
  refine ⟨_, hlast, rfl, rfl, ?_⟩
  show ((((MaterialWithAmount.mk bname target_rate).mul recipe.duration).div
      out.amount).div mult).amount = _
  simp only [MaterialWithAmount.mul, MaterialWithAmount.div]
  rw [div_div]

theorem C2_building_count_witness :
    ∃ (R : Requirements) (e : RequirementForMaterial),
      get_requirements 2 "Gear" 2 uiW rmapW multW = .ok R ∧
      dictLookup R "Gear" = some e ∧
      e.rate = 2 ∧
      e.building.name = "Assembling Machine Mk.1" ∧
      e.building.amount = 2 := by
  have hleaf : get_requirements 1 "Iron Plate" (2 / 1 * 1) uiW rmapW multW =
      .ok [("Iron Plate", ⟨2 / 1 * 1, ⟨"", 0⟩, []⟩)] :=
    get_requirements_leaf_eq 0 "Iron Plate" (2 / 1 * 1) uiW rmapW multW rfl
  have hsubs : expand_inputs 1 gearRecipe.input 1 2 uiW rmapW multW =
      .ok [[("Iron Plate", ⟨2 / 1 * 1, ⟨"", 0⟩, []⟩)]] := by
    simp only [gearRecipe, expand_inputs, hleaf]
  have hc : get_requirements 2 "Gear" 2 uiW rmapW multW =
      match expand_inputs 1 gearRecipe.input 1 2 uiW rmapW multW with
      | .error e => .error e
      | .ok subResults =>
        after_sub_results "Gear" 2 uiW gearRecipe ⟨"Gear", 1⟩ multW subResults :=
    get_requirements_crafted_eq 1 "Gear" 2 uiW rmapW multW rfl rfl
  have hok : get_requirements 2 "Gear" 2 uiW rmapW multW =
      .ok [("Iron Plate", ⟨2 / 1 * 1, ⟨"", 0⟩, []⟩),
           ("Gear", ⟨2, ⟨"Assembling Machine Mk.1", 2 * 1 / 1 / 1⟩,
             [⟨"Iron Plate", 1 * 2 / 1⟩]⟩)] := by
    rw [hc]
    simp only [hsubs]
    rfl
  have hcycle : ∀ s ∈ [[(("Iron Plate" : String),
      (⟨2 / 1 * 1, ⟨"", 0⟩, []⟩ : RequirementForMaterial))]],
      ("Gear" : String) ∉ dictKeys s := by
    intro s hs
    rw [List.mem_singleton] at hs
    subst hs
    decide
  obtain ⟨e, he, her, hen, hea⟩ :=
    C2_building_count 1 "Gear" 2 uiW rmapW multW rfl rfl hsubs rfl rfl hcycle hok
  refine ⟨_, e, hok, he, her, hen, ?_⟩
  rw [hea]
  norm_num [gearRecipe]

/-- C1: when the expansion of a crafted target demands material M in exactly
two of the ingredient sub-results — at rates e1.rate and e2.rate, with
building counts e1.building.amount and e2.building.amount — the returned
Requirements map holds exactly one entry for M, whose rate is the sum of the
two rates and whose building amount is the sum of the two building counts. -/
theorem C1_merge_additivity (fuel : Nat) (target_material : String) (target_rate : ℚ)
    (user_input : UserInput) (recipe_map : List (String × Recipe))
    (multipliers : Multipliers) {recipe : Recipe} {out : MaterialWithAmount}
    (A B C : List Requirements) (m1 m2 : Requirements) (M : String)
    {e1 e2 : RequirementForMaterial} {R : Requirements}
    (hl : dictLookup recipe_map target_material = some recipe)
    (hf : find_recipe_output_material recipe target_material = .ok out)
    (hsubs : expand_inputs fuel recipe.input out.amount target_rate user_input
        recipe_map multipliers = .ok (A ++ m1 :: B ++ m2 :: C))
    (hM : M ≠ target_material)
    (h1 : dictLookup m1 M = some e1)
    (h2 : dictLookup m2 M = some e2)
    (hACB : ∀ r ∈ A ++ B ++ C, M ∉ dictKeys r)
    (hok : get_requirements (fuel + 1) target_material target_rate user_input
        recipe_map multipliers = .ok R) :
    ∃ e, dictLookup R M = some e ∧ (dictKeys R).count M = 1 ∧
      e.rate = e1.rate + e2.rate ∧
      e.building.amount = e1.building.amount + e2.building.amount := by
  rw [get_requirements_crafted_eq fuel target_material target_rate user_input
    recipe_map multipliers hl hf] at hok
  simp only [hsubs] at hok
  unfold after_sub_results at hok
  cases hb : user_input.building_for_facility recipe.made_in with
  | error e =>
    simp only [hb] at hok
    exact Except.noConfusion hok
  | ok bname =>
    cases hm : user_input.multiplier_for_facility multipliers recipe.made_in with
    | error e =>
      simp only [hb, hm] at hok
      exact Except.noConfusion hok
    | ok mult =>
      simp only [hb, hm] at hok
      have hmem1 : m1 ∈ A ++ m1 :: B ++ m2 :: C := by simp
      have hmem2 : m2 ∈ A ++ m1 :: B ++ m2 :: C := by simp
      obtain ⟨mat1, hmat1, hg1⟩ := expand_inputs_ok_mem hsubs m1 hmem1
      obtain ⟨mat2, hmat2, hg2⟩ := expand_inputs_ok_mem hsubs m2 hmem2
      have hnd1 := get_requirements_ok_nodup hg1
      have hnd2 := get_requirements_ok_nodup hg2
      have hndR := merge_requirements_ok_nodup hok
      have hMmem : M ∈ dictKeys R := by
        rw [merge_requirements_ok_mem hok M]
        exact ⟨m1, by simp, mem_dictKeys_of_lookup h1⟩
      obtain ⟨e, he⟩ := dictLookup_isSome_of_mem hMmem
      have hcount : (dictKeys R).count M = 1 :=
        List.count_eq_one_of_mem hndR hMmem
      have hself : M ∉ dictKeys
          [(target_material,
            (⟨target_rate,
              ((MaterialWithAmount.mk bname target_rate).mul recipe.duration).div
                out.amount |>.div mult,
              recipe.input.map (fun material =>
                (material.mul target_rate).div out.amount)⟩ :
              RequirementForMaterial))] := by
        simp [dictKeys, hM]
      have hzA : ∀ r ∈ A, M ∉ dictKeys r := fun r hr => hACB r (by simp [hr])
      have hzB : ∀ r ∈ B, M ∉ dictKeys r := fun r hr => hACB r (by simp [hr])
      have hzC : ∀ r ∈ C, M ∉ dictKeys r := fun r hr => hACB r (by simp [hr])
      refine ⟨e, he, hcount, ?_, ?_⟩
      · have hq := merge_requirements_ok_fieldSum (fun x => x.rate)
          (fun _ _ _ => rfl) hok M
        rw [fieldSum_of_lookup hndR he] at hq
        rw [hq]
        simp only [List.map_append, List.map_cons, List.sum_append, List.sum_cons,
          List.map_nil, List.sum_nil]
        rw [fieldSum_of_lookup hnd1 h1, fieldSum_of_lookup hnd2 h2,
          fieldSum_eq_zero_of_not_mem hself,
          fieldSum_sum_zero (fun x => x.rate) hzA,
          fieldSum_sum_zero (fun x => x.rate) hzB,
          fieldSum_sum_zero (fun x => x.rate) hzC]
        ring
      · have hq := merge_requirements_ok_fieldSum (fun x => x.building.amount)
          (fun _ _ _ => rfl) hok M
        rw [fieldSum_of_lookup hndR he] at hq
        rw [hq]
        simp only [List.map_append, List.map_cons, List.sum_append, List.sum_cons,
          List.map_nil, List.sum_nil]
        rw [fieldSum_of_lookup hnd1 h1, fieldSum_of_lookup hnd2 h2,
          fieldSum_eq_zero_of_not_mem hself,
          fieldSum_sum_zero (fun x => x.building.amount) hzA,
          fieldSum_sum_zero (fun x => x.building.amount) hzB,
          fieldSum_sum_zero (fun x => x.building.amount) hzC]
        ring

theorem C1_merge_additivity_witness :
    ∃ (R : Requirements) (e : RequirementForMaterial),
      get_requirements 3 "T" 1 uiT rmapT multT = .ok R ∧
      dictLookup R "M" = some e ∧ (dictKeys R).count "M" = 1 ∧
      e.rate = 3 ∧ e.building.amount = 0 := by
  have hleafX : get_requirements 1 "M" (1 / 1 * 1 / 1 * 1) uiT rmapT multT =
      .ok [("M", ⟨1 / 1 * 1 / 1 * 1, ⟨"", 0⟩, []⟩)] :=
    get_requirements_leaf_eq 0 "M" (1 / 1 * 1 / 1 * 1) uiT rmapT multT rfl
  have hleafY : get_requirements 1 "M" (1 / 1 * 1 / 1 * 2) uiT rmapT multT =
      .ok [("M", ⟨1 / 1 * 1 / 1 * 2, ⟨"", 0⟩, []⟩)] :=
    get_requirements_leaf_eq 0 "M" (1 / 1 * 1 / 1 * 2) uiT rmapT multT rfl
  have hsubsX : expand_inputs 1 xRecipe.input 1 (1 / 1 * 1) uiT rmapT multT =
      .ok [[("M", ⟨1 / 1 * 1 / 1 * 1, ⟨"", 0⟩, []⟩)]] := by
    simp only [xRecipe, expand_inputs, hleafX]
  have hsubsY : expand_inputs 1 yRecipe.input 1 (1 / 1 * 1) uiT rmapT multT =
      .ok [[("M", ⟨1 / 1 * 1 / 1 * 2, ⟨"", 0⟩, []⟩)]] := by
    simp only [yRecipe, expand_inputs, hleafY]
  have hcX : get_requirements 2 "X" (1 / 1 * 1) uiT rmapT multT =
      match expand_inputs 1 xRecipe.input 1 (1 / 1 * 1) uiT rmapT multT with
      | .error e => .error e
      | .ok subResults =>
        after_sub_results "X" (1 / 1 * 1) uiT xRecipe ⟨"X", 1⟩ multT subResults :=
    get_requirements_crafted_eq 1 "X" (1 / 1 * 1) uiT rmapT multT rfl rfl
  have hX : get_requirements 2 "X" (1 / 1 * 1) uiT rmapT multT =
      .ok [("M", ⟨1 / 1 * 1 / 1 * 1, ⟨"", 0⟩, []⟩),
           ("X", ⟨1 / 1 * 1, ⟨"A1", 1 / 1 * 1 * 1 / 1 / 1⟩,
             [⟨"M", 1 * (1 / 1 * 1) / 1⟩]⟩)] := by
    rw [hcX]
    simp only [hsubsX]
    rfl
  have hcY : get_requirements 2 "Y" (1 / 1 * 1) uiT rmapT multT =
      match expand_inputs 1 yRecipe.input 1 (1 / 1 * 1) uiT rmapT multT with
      | .error e => .error e
      | .ok subResults =>
        after_sub_results "Y" (1 / 1 * 1) uiT yRecipe ⟨"Y", 1⟩ multT subResults :=
    get_requirements_crafted_eq 1 "Y" (1 / 1 * 1) uiT rmapT multT rfl rfl
  have hY : get_requirements 2 "Y" (1 / 1 * 1) uiT rmapT multT =
      .ok [("M", ⟨1 / 1 * 1 / 1 * 2, ⟨"", 0⟩, []⟩),
           ("Y", ⟨1 / 1 * 1, ⟨"A1", 1 / 1 * 1 * 1 / 1 / 1⟩,
             [⟨"M", 2 * (1 / 1 * 1) / 1⟩]⟩)] := by
    rw [hcY]
    simp only [hsubsY]
    rfl
  have hsubsT : expand_inputs 2 tRecipe.input 1 1 uiT rmapT multT =
      .ok [[("M", ⟨1 / 1 * 1 / 1 * 1, ⟨"", 0⟩, []⟩),
            ("X", ⟨1 / 1 * 1, ⟨"A1", 1 / 1 * 1 * 1 / 1 / 1⟩,
              [⟨"M", 1 * (1 / 1 * 1) / 1⟩]⟩)],
           [("M", ⟨1 / 1 * 1 / 1 * 2, ⟨"", 0⟩, []⟩),
            ("Y", ⟨1 / 1 * 1, ⟨"A1", 1 / 1 * 1 * 1 / 1 / 1⟩,
              [⟨"M", 2 * (1 / 1 * 1) / 1⟩]⟩)]] := by
    simp only [tRecipe, expand_inputs, hX, hY]
  have hcT : get_requirements 3 "T" 1 uiT rmapT multT =
      match expand_inputs 2 tRecipe.input 1 1 uiT rmapT multT with
      | .error e => .error e
      | .ok subResults =>
        after_sub_results "T" 1 uiT tRecipe ⟨"T", 1⟩ multT subResults :=
    get_requirements_crafted_eq 2 "T" 1 uiT rmapT multT rfl rfl
  have hok : get_requirements 3 "T" 1 uiT rmapT multT =
      .ok [("M", ⟨1 / 1 * 1 / 1 * 1 + 1 / 1 * 1 / 1 * 2, ⟨"", 0 + 0⟩, []⟩),
           ("X", ⟨1 / 1 * 1, ⟨"A1", 1 / 1 * 1 * 1 / 1 / 1⟩,
             [⟨"M", 1 * (1 / 1 * 1) / 1⟩]⟩),
           ("Y", ⟨1 / 1 * 1, ⟨"A1", 1 / 1 * 1 * 1 / 1 / 1⟩,
             [⟨"M", 2 * (1 / 1 * 1) / 1⟩]⟩),
           ("T", ⟨1, ⟨"A1", 1 * 1 / 1 / 1⟩,
             [⟨"X", 1 * 1 / 1⟩, ⟨"Y", 1 * 1 / 1⟩]⟩)] := by
    rw [hcT]
    simp only [hsubsT]
    rfl
  obtain ⟨e, he, hcount, hrate, hamt⟩ :=
    C1_merge_additivity 2 "T" 1 uiT rmapT multT [] []
      ([] : List Requirements)
      [("M", ⟨1 / 1 * 1 / 1 * 1, ⟨"", 0⟩, []⟩),
       ("X", ⟨1 / 1 * 1, ⟨"A1", 1 / 1 * 1 * 1 / 1 / 1⟩,
         [⟨"M", 1 * (1 / 1 * 1) / 1⟩]⟩)]
      [("M", ⟨1 / 1 * 1 / 1 * 2, ⟨"", 0⟩, []⟩),
       ("Y", ⟨1 / 1 * 1, ⟨"A1", 1 / 1 * 1 * 1 / 1 / 1⟩,
         [⟨"M", 2 * (1 / 1 * 1) / 1⟩]⟩)]
      "M" rfl rfl hsubsT (by decide) rfl rfl (by simp) hok
  refine ⟨_, e, hok, he, hcount, ?_, ?_⟩
  · rw [hrate]
    norm_num
  · rw [hamt]
    norm_num

end DSPCalc
